import Mathlib

/-!
# Verification of the infinite-chat strategic-context-access core

Shallow embedding of the core algorithms of the repository:

* `src/search.py` — the `FuzzySearch` Matcher (fuzzy scoring, span finding,
  snippet extraction, message search, context expansion);
* `src/true_rlm_agent.py` — the `TrueRLMAgent` context-access toolset
  (`_get_context_overview`, `_get_context_chunk`) and the bounded
  tool-calling orchestration loop (`process_user_query`).

Python floats are modelled as exact rationals (`ℚ`): every constant used by
the scoring formula (0.5, 0.3, 0.1) is exactly representable, and all the
properties proved below are robust to that choice.  Python lists with
(possibly negative) slice indices are modelled by `pySlice`.  The wall-clock
fields (`timestamp` strings inside log entries, `processing_time_seconds`)
are not modelled: no property below depends on them.

The Model Backend and the storage collaborator are external to the core; the
orchestration loop is therefore parameterized by a scripted backend
(`Nat → Except String LMResponse`, indexed by backend-call count — the
scripted backend ignores the running message buffer, which the source code
only ever passes back to the backend, so the buffer is not observable and is
not carried in the model) and by an executor for the four non-final context
tools (`ToolCall → Except String String`, the `Except.error` case standing
for a raised exception).
-/

namespace InfiniteChat

/-- A conversation message, as handled by `search.py` / `true_rlm_agent.py`
(dict with keys `id`, `role`, `content`, `timestamp`). -/
structure Msg where
  id : String
  role : String
  content : String
  timestamp : String
deriving DecidableEq, Repr

/-- Python list slicing `l[a:b]` with possibly negative indices:
a negative index counts from the end of the list; out-of-range indices are
clipped to the ends. -/
def pySlice {α : Type} (l : List α) (a b : Int) : List α :=
  let n : Int := l.length
  let lo : Int := if a < 0 then max (n + a) 0 else min a n
  let hi : Int := if b < 0 then max (n + b) 0 else min b n
  (l.take hi.toNat).drop lo.toNat

/-! ## Matcher (`src/search.py`, class `FuzzySearch`) -/

/-- Lower-cased character list of a string (Python `s.lower()` on the ASCII
inputs exercised here). -/
def lowerList (s : String) : List Char :=
  s.toList.map Char.toLower

/-- The greedy left-to-right subsequence walk of `fuzzy_match_score`
(`search.py` lines 15-23) and of the window re-walk in
`find_match_positions` (lines 109-117): walk the text, consuming the next
needed pattern character whenever it matches; `i` is the index of the first
text character.  Returns the list of matched text indices together with the
still-unconsumed tail of the pattern. -/
def gwalk : List Char → List Char → Nat → List Nat × List Char
  | [], _, _ => ([], [])
  | p, [], _ => ([], p)
  | pc :: ps, tc :: ts, i =>
    if pc = tc then
      let r := gwalk ps ts (i + 1)
      (i :: r.1, r.2)
    else
      gwalk (pc :: ps) ts (i + 1)

/-- `contiguity_bonus` of `fuzzy_match_score` (lines 34-37): the number of
indices `i ≥ 1` with `matches[i] = matches[i-1] + 1`. -/
def countContig : List Nat → Nat
  | a :: b :: rest => (if b = a + 1 then 1 else 0) + countContig (b :: rest)
  | _ => 0

/-- The separator set of the word-boundary bonus (line 42). -/
def isSepChar (c : Char) : Bool :=
  c = ' ' || c = '\t' || c = '\n' || c = '_' || c = '-'

/-- `word_boundary_bonus` (lines 40-43): number of match positions that are
at the start of the text or preceded by a separator character. -/
def wbCount (t : List Char) (ms : List Nat) : Nat :=
  (ms.filter (fun i =>
    i = 0 || (match t.get? (i - 1) with
              | some c => isSepChar c
              | none => false))).length

/-- `fuzzy_match_score` on already lower-cased character lists
(`search.py` lines 9-57). -/
def scoreList (p t : List Char) : ℚ :=
  let w := gwalk p t 0
  if w.2 ≠ [] then 0
  else if w.1 = [] then 0
  else
    let n : ℚ := p.length
    let base : ℚ := (w.1.length : ℚ) / n
    let contig : ℚ := (countContig w.1 : ℚ)
    let wb : ℚ := (wbCount t w.1 : ℚ)
    let early : ℚ := max 0 (1 - (w.1.headD 0 : ℚ) / (t.length : ℚ))
    min (base * 0.5 + (contig / n) * 0.3 + (wb / n) * 0.1 + early * 0.1) 1

/-- `FuzzySearch.fuzzy_match_score(pattern, text)` (`search.py` lines 9-57). -/
def fuzzy_match_score (pattern text : String) : ℚ :=
  scoreList (lowerList pattern) (lowerList text)

/-- The greedy walk consumed the whole pattern (the condition under which
`fuzzy_match_score` does not return on line 27). -/
def greedyConsumed (pattern text : String) : Prop :=
  (gwalk (lowerList pattern) (lowerList text) 0).2 = []

instance (pattern text : String) : Decidable (greedyConsumed pattern text) := by
  unfold greedyConsumed; infer_instance

/-! ### Snippet extraction (`search.py` lines 59-93) -/

/-- The sentence-terminating punctuation class of `re.split(r'([.!?]+)', …)`. -/
def isPunctChar (c : Char) : Bool :=
  c = '.' || c = '!' || c = '?'

/-- Python whitespace as stripped by `str.strip()` / split by `str.split()`. -/
def isPySpace (c : Char) : Bool :=
  c = ' ' || c = '\t' || c = '\n' || c = '\r' || c = '\x0b' || c = '\x0c'

/-- `re.split(r'([.!?]+)', content)`: alternating list
`[text, punct, text, punct, …, text]` where each `punct` is a maximal
nonempty run of `.!?` (the capture group is kept) and the `text` pieces
(possibly empty) are the stretches in between.  Fuel-driven recursion; the
wrapper supplies enough fuel. -/
def splitSentGo : Nat → List Char → List (List Char)
  | 0, _ => []
  | fuel + 1, l =>
    let txt := l.takeWhile (fun c => ¬ isPunctChar c)
    let rest := l.dropWhile (fun c => ¬ isPunctChar c)
    match rest with
    | [] => [txt]
    | _ =>
      let punct := rest.takeWhile isPunctChar
      txt :: punct :: splitSentGo fuel (rest.dropWhile isPunctChar)

/-- See `splitSentGo`. -/
def splitSent (l : List Char) : List (List Char) :=
  splitSentGo (l.length + 1) l

/-- Recombination of the split pieces (`search.py` lines 65-70): pair each
text piece with the punctuation run that follows it. -/
def combineSent : List (List Char) → List (List Char)
  | [] => []
  | [a] => [a]
  | a :: b :: rest => (a ++ b) :: combineSent rest

/-- Locating the sentence containing `match_start` (lines 73-81): the first
sentence whose cumulative character range contains it, defaulting to index 0
when none does. -/
def findTargetGo (ms : Nat) : Nat → Nat → List (List Char) → Nat
  | _, _, [] => 0
  | i, cc, s :: rest =>
    if cc ≤ ms ∧ ms ≤ cc + s.length then i
    else findTargetGo ms (i + 1) (cc + s.length) rest

/-- Python `str.strip()`. -/
def pyStrip (l : List Char) : List Char :=
  ((l.dropWhile isPySpace).reverse.dropWhile isPySpace).reverse

set_option linter.unusedVariables false in
/-- `FuzzySearch.extract_snippet(content, match_start, match_end,
context_sentences)` (`search.py` lines 59-93).  `match_end` is accepted and,
as in the source, never used. -/
def extract_snippet (content : String) (match_start match_end : Nat)
    (context_sentences : Nat) : String :=
  let sents := combineSent (splitSent content.toList)
  let t := findTargetGo match_start 0 0 sents
  let start_idx := t - context_sentences
  let end_idx := min sents.length (t + context_sentences + 1)
  let snippet := pyStrip (List.flatten ((sents.take end_idx).drop start_idx))
  if snippet.length > 300 then String.mk (snippet.take 300 ++ "...".toList)
  else String.mk snippet

/-! ### Span finding and search (`search.py` lines 95-149) -/

/-- `FuzzySearch.find_match_positions(pattern, text)` (`search.py` lines
95-122): slide over `range(len(text) - window_size + 1)` with
`window_size = max(len(pattern), 3)`; each window is the slice
`text[i : i + window_size + 10]`; windows scoring strictly above 0.5 are
re-walked and a span is recorded when the re-walk consumed the whole
pattern. -/
def find_match_positions (pattern text : String) : List (Nat × Nat) :=
  let p := lowerList pattern
  let t := lowerList text
  let ws := max p.length 3
  (List.range ((t.length : Int) - ws + 1).toNat).filterMap (fun i =>
    let w := (t.drop i).take (ws + 10)
    if scoreList p w > 0.5 then
      let r := gwalk p w 0
      if r.2 = [] then some (i + r.1.headD 0, i + r.1.getLastD 0 + 1)
      else none
    else none)

/-- Modelled from the spec (§4.1 `find_match_spans`): identical sliding
window, but a window is considered whenever its fuzzy score is **at least**
0.5 (the spec says `fuzzy_score ≥ 0.5`; the source tests `> 0.5`).  Kept as
a separate definition so the two can be compared. -/
def find_match_positions_spec (pattern text : String) : List (Nat × Nat) :=
  let p := lowerList pattern
  let t := lowerList text
  let ws := max p.length 3
  (List.range ((t.length : Int) - ws + 1).toNat).filterMap (fun i =>
    let w := (t.drop i).take (ws + 10)
    if scoreList p w ≥ 0.5 then
      let r := gwalk p w 0
      if r.2 = [] then some (i + r.1.headD 0, i + r.1.getLastD 0 + 1)
      else none
    else none)

/-- A search hit (`search.py` lines 138-145). -/
structure SearchResult where
  message_id : String
  snippet : String
  timestamp : String
  role : String
  score : ℚ
  match_positions : Nat × Nat
deriving DecidableEq, Repr

/-- The per-message body of the loop of `search_messages` (lines 128-145):
`None` when the message yields no match positions. -/
def mkSearchResult (query : String) (m : Msg) : Option SearchResult :=
  match find_match_positions query m.content with
  | [] => none
  | best :: _ =>
    some { message_id := m.id
           snippet := extract_snippet m.content best.1 best.2 1
           timestamp := m.timestamp
           role := m.role
           score := fuzzy_match_score query m.content
           match_positions := best }

/-- Stable insertion into a list sorted by `le`. -/
def insSorted {α : Type} (le : α → α → Bool) (x : α) : List α → List α
  | [] => [x]
  | y :: ys => if le x y then x :: y :: ys else y :: insSorted le x ys

/-- Stable insertion sort, modelling Python's stable `list.sort`. -/
def sortByKey {α : Type} (le : α → α → Bool) (l : List α) : List α :=
  l.foldr (insSorted le) []

/-- `FuzzySearch.search_messages(messages, query, limit)` (`search.py`
lines 124-149): collect a hit per matching message, sort by score
descending, keep the first `limit`. -/
def search_messages (messages : List Msg) (query : String) (limit : Nat) :
    List SearchResult :=
  (sortByKey (fun a b => decide (b.score ≤ a.score))
    (messages.filterMap (mkSearchResult query))).take limit

/-! ### Context expansion (`search.py` lines 151-178) -/

/-- The linear scan for the target index (`search.py` lines 154-159). -/
def findIdxGo (message_id : String) : List Msg → Option Nat
  | [] => none
  | m :: rest =>
    if m.id = message_id then some 0
    else
      match findIdxGo message_id rest with
      | none => none
      | some i => some (i + 1)

/-- `FuzzySearch.expand_context(messages, message_id, direction, pairs)`
(`search.py` lines 151-178).  `pairs` is a Python int, hence `Int` here; the
before/after windows use Python slice semantics. -/
def expand_context (messages : List Msg) (message_id : String)
    (direction : String) (pairs : Int) : List Msg :=
  match findIdxGo message_id messages with
  | none => []
  | some target_idx =>
    let target := pySlice messages target_idx (target_idx + 1)
    let before_messages :=
      if direction = "before" ∨ direction = "both" then
        pySlice messages (max 0 ((target_idx : Int) - pairs * 2)) target_idx
      else []
    let after_messages :=
      if direction = "after" ∨ direction = "both" then
        pySlice messages ((target_idx : Int) + 1)
          (min (messages.length : Int) ((target_idx : Int) + 1 + pairs * 2))
      else []
    before_messages ++ target ++ after_messages

/-! ## ContextAccessToolset (`src/true_rlm_agent.py`) -/

/-- Character count of a chunk — the "token" estimate used throughout
`true_rlm_agent.py` (`len(msg.get('content', ''))`). -/
def tokensOf (chunk : List Msg) : Nat :=
  (chunk.map (fun m => m.content.length)).sum

/-- The tail-truncation loop of `_get_context_chunk` (lines 291-301): keep
messages from the front while the running character count stays within
`max_tokens`; stop at the first message that does not fit. -/
def truncGo : List Msg → Int → Int → List Msg
  | [], _, _ => []
  | m :: rest, running, mx =>
    if running + m.content.length ≤ mx then
      m :: truncGo rest (running + m.content.length) mx
    else []

/-- Result of `_get_context_chunk`: either the structured error payload
(`{"error": …}`) or the chunk payload (lines 303-310). -/
inductive ChunkOut where
  | err (msg : String)
  | payload (chunk : List Msg) (start_index end_index : Int)
      (total_in_chunk : Nat) (estimated_tokens : Nat) (has_more : Bool)
deriving DecidableEq, Repr

/-- `TrueRLMAgent._get_context_chunk(conversation_id, args)`
(`true_rlm_agent.py` lines 268-313), over the full history list.
`none` arguments stand for keys absent from `args` (defaults
`end_index = start_index + 10`, `max_tokens = 2000`). -/
def get_context_chunk (history : List Msg) (start_arg : Int)
    (end_arg : Option Int) (max_tokens_arg : Option Int) : ChunkOut :=
  let start0 := start_arg
  let end0 := end_arg.getD (start0 + 10)
  let max_tokens := max_tokens_arg.getD 2000
  let start1 := if start0 < 0 then 0 else start0
  let end1 := if end0 > (history.length : Int) then (history.length : Int) else end0
  if start1 ≥ (history.length : Int) then
    .err ("Start index " ++ toString start1 ++ " exceeds total messages "
      ++ toString history.length)
  else
    let chunk0 := pySlice history start1 end1
    let chunk :=
      if (tokensOf chunk0 : Int) > max_tokens then truncGo chunk0 0 max_tokens
      else chunk0
    .payload chunk start1 (start1 + chunk.length) chunk.length (tokensOf chunk)
      (decide (end1 < (history.length : Int)))

/-- Python `str.split()` (split on whitespace runs, dropping empty pieces),
fuel-driven. -/
def pySplitGo : Nat → List Char → List (List Char)
  | 0, _ => []
  | fuel + 1, l =>
    match l.dropWhile isPySpace with
    | [] => []
    | l1 =>
      l1.takeWhile (fun c => ¬ isPySpace c)
        :: pySplitGo fuel (l1.dropWhile (fun c => ¬ isPySpace c))

/-- See `pySplitGo`. -/
def pySplitWs (l : List Char) : List (List Char) :=
  pySplitGo (l.length + 1) l

/-- Python `str.count(sub)` for nonempty `sub`: number of non-overlapping
occurrences, scanning left to right; fuel-driven. -/
def strCountGo : Nat → List Char → List Char → Nat
  | 0, _, _ => 0
  | fuel + 1, s, sub =>
    match s with
    | [] => 0
    | _ :: stail =>
      if sub.isPrefixOf s then 1 + strCountGo fuel (s.drop sub.length) sub
      else strCountGo fuel stail sub

/-- Python `str.count(sub)` (`all_text.count(word)` on line 248). -/
def strCount (s sub : List Char) : Nat :=
  if sub = [] then s.length + 1 else strCountGo (s.length + 1) s sub

/-- `' '.join(msg.get('content','').lower() for msg in full_context)`
(line 246). -/
def allText (history : List Msg) : List Char :=
  (String.intercalate " " (history.map (fun m =>
    String.mk (lowerList m.content)))).toList

/-- The `common_words` list comprehension of `_get_context_overview`
(lines 247-248): words of the corpus of length `> 4` whose substring count
in the corpus exceeds 2, first ten kept, **in corpus order and with
repetitions** (the comprehension iterates over every word occurrence). -/
def commonWords (history : List Msg) : List String :=
  (((pySplitWs (allText history)).filter (fun w =>
      4 < w.length ∧ 2 < strCount (allText history) w)).take 10).map String.mk

/-- Insertion-ordered role counter (`role_counts` of lines 251-254),
modelling the Python dict as an association list. -/
def bumpRole : List (String × Nat) → String → List (String × Nat)
  | [], r => [(r, 1)]
  | (a, c) :: rest, r =>
    if a = r then (a, c + 1) :: rest else (a, c) :: bumpRole rest r

/-- `role_counts` accumulated over the history (lines 251-254). -/
def countRoles (history : List Msg) : List (String × Nat) :=
  history.foldl (fun acc m => bumpRole acc m.role) []

/-- Dict lookup with default 0 (`role_counts.get(role, 0)` semantics). -/
def lookupRole (l : List (String × Nat)) (r : String) : Nat :=
  ((l.find? (fun p => p.1 = r)).map Prod.snd).getD 0

/-- Result of `_get_context_overview` (lines 227-232 and 256-263).  The
empty-history return carries the key `topics` instead of `potential_topics`
and no `context_available` key in the source; both are folded into the same
structure here (`context_available = false` and `potential_topics = []` for
the empty case). -/
structure Overview where
  total_messages : Nat
  total_tokens : Nat
  conversation_span : String
  potential_topics : List String
  message_distribution : List (String × Nat)
  context_available : Bool
  error : Option String
deriving DecidableEq, Repr

/-- `TrueRLMAgent._get_context_overview(conversation_id)`
(`true_rlm_agent.py` lines 220-266), over the full history list. -/
def get_context_overview (history : List Msg) : Overview :=
  if history.isEmpty then
    { total_messages := 0
      total_tokens := 0
      conversation_span := "No messages"
      potential_topics := []
      message_distribution := []
      context_available := false
      error := none }
  else
    let timestamps := (history.map (fun m => m.timestamp)).filter (fun t => t ≠ "")
    let time_span :=
      match timestamps with
      | [] => "Unknown time span"
      | t :: _ =>
        (t.take 10) ++ " to " ++ ((timestamps.getLastD t).take 10)
    { total_messages := history.length
      total_tokens := tokensOf history
      conversation_span := time_span
      potential_topics := commonWords history
      message_distribution := countRoles history
      context_available := true
      error := none }

/-! ## Orchestrator — the Root Agent Loop
(`TrueRLMAgent.process_user_query`, `true_rlm_agent.py` lines 390-538) -/

/-- Arguments of a tool call as far as the orchestrator inspects them: only
`final_answer` arguments are ever read (lines 477-479); `answer` is a
required key the source reads with `[…]` (a missing key raises), the other
two are read with `.get`. -/
structure ToolCallArgs where
  answer : Option String
  reasoning : Option String
  context_sources : Option (List String)
deriving DecidableEq, Repr

/-- A tool call as produced by the Model Backend. -/
structure ToolCall where
  id : String
  name : String
  args : ToolCallArgs
deriving DecidableEq, Repr

/-- A Model Backend response, as far as the loop inspects it (lines
430-433): either no (or empty) `choices`, a message without a `tool_calls`
key, or a message with one. -/
inductive LMResponse where
  | noChoices
  | message (content : Option String)
  | toolMessage (content : Option String) (toolCalls : List ToolCall)
deriving DecidableEq, Repr

/-- One entry of the conversation log.  `entryType` is the optional `type`
key (`tool_request`, `tool_result`, `direct_response`; the two seed entries
have none); the wall-clock `timestamp` key is not modelled. -/
structure LogEntry where
  role : String
  entryType : Option String
  content : String
deriving DecidableEq, Repr

/-- The caller-facing result of `process_user_query` (minus the wall-clock
`processing_time_seconds` and the constant `rlm_pattern` field). -/
structure RLMResult where
  answer : String
  reasoning : String
  context_sources : List String
  conversation_log : List LogEntry
  iterations : Nat
  error : Option String
deriving DecidableEq, Repr

/-- Outcome of `execute_context_tool` (lines 198-218): the `final_answer`
branch returns the marker payload `{"type": "final_answer", "data": args}`;
every other tool returns an ordinary payload, abstracted here to its
serialized form produced by the external `toolExec` collaborator. -/
inductive ToolOutcome where
  | final (data : ToolCallArgs)
  | payload (s : String)
deriving DecidableEq, Repr

/-- `TrueRLMAgent.execute_context_tool` as the loop observes it: a
`final_answer` call is turned into the termination marker without any
outside call; the four context tools run through the external executor,
whose `Except.error` stands for a raised exception. -/
def execute_context_tool (toolExec : ToolCall → Except String String)
    (tc : ToolCall) : Except String ToolOutcome :=
  if tc.name = "final_answer" then .ok (.final tc.args)
  else (toolExec tc).map .payload

/-- Rendering of the `tool_request` log content (line 437); the JSON
serialization is abstracted to the called tool names. -/
def toolRequestContent (cs : List ToolCall) : String :=
  "Tool calls: " ++ String.intercalate ", " (cs.map (fun tc => tc.name))

/-- The `tool_request` log entry (lines 435-440). -/
def toolRequestEntry (cs : List ToolCall) : LogEntry :=
  { role := "assistant", entryType := some "tool_request"
    content := toolRequestContent cs }

/-- The per-tool `tool_result` log entry (lines 454-459); the serialized
result payload is abstracted. -/
def toolResultEntry (tc : ToolCall) : LogEntry :=
  { role := "tool", entryType := some "tool_result"
    content := "Tool " ++ tc.name ++ " result" }

/-- The `direct_response` log entry (lines 495-500). -/
def directEntry (c : String) : LogEntry :=
  { role := "assistant", entryType := some "direct_response", content := c }

/-- The sequential tool-execution loop of one iteration (lines 446-471):
returns the `tool_result` log entries produced, the serialized results that
would be fed back to the backend, and the `final_answer` arguments if one
was reached (in which case the remaining calls of the batch are not
processed). -/
def processToolCalls (toolExec : ToolCall → Except String String) :
    List ToolCall → Except String (List LogEntry × List String × Option ToolCallArgs)
  | [] => .ok ([], [], none)
  | tc :: rest => do
    let out ← execute_context_tool toolExec tc
    match out with
    | .final data => .ok ([toolResultEntry tc], [], some data)
    | .payload s => do
      let (ls, ms, f) ← processToolCalls toolExec rest
      .ok (toolResultEntry tc :: ls, s :: ms, f)

/-- The fixed apology answer of the iteration-ceiling fallback (line 518). -/
def maxIterAnswer : String :=
  "I apologize, but I was unable to process your request within the allowed steps. Please try rephrasing your question."

/-- The fallback result built after the loop (lines 516-525). -/
def maxIterResult (log : List LogEntry) (it : Nat) : RLMResult :=
  { answer := maxIterAnswer
    reasoning := "Max iterations reached without final answer"
    context_sources := []
    conversation_log := log
    iterations := it
    error := none }

/-- The `while iteration < max_iterations` loop (lines 426-513).
Arguments: the current backend response, accumulated log, current
`iteration` value, number of backend calls made so far (instrumentation:
the second component of the returned pair), and remaining fuel
(`max_iterations - iteration`; the top level supplies 20).  An
`Except.error` anywhere propagates to the `except` clause of the caller. -/
def rlmLoop (script : Nat → Except String LMResponse)
    (toolExec : ToolCall → Except String String) :
    LMResponse → List LogEntry → Nat → Nat → Nat →
    Except String (RLMResult × Nat)
  | _, log, it, calls, 0 => .ok (maxIterResult log it, calls)
  | resp, log, it, calls, fuel + 1 =>
    match resp with
    | .noChoices => .ok (maxIterResult log (it + 1), calls)
    | .message c =>
      .ok ({ answer := c.getD "No response generated"
             reasoning := "Direct response without tool usage"
             context_sources := []
             conversation_log := log ++ [directEntry (c.getD "")]
             iterations := it + 1
             error := none }, calls)
    | .toolMessage _ cs => do
      let log1 := log ++ [toolRequestEntry cs]
      let (entries, _toolMsgs, fin) ← processToolCalls toolExec cs
      let log2 := log1 ++ entries
      match fin with
      | some data => do
        let ans ←
          match data.answer with
          | some a => Except.ok a
          | none => Except.error "KeyError: answer"
        .ok ({ answer := ans
               reasoning := data.reasoning.getD ""
               context_sources := data.context_sources.getD []
               conversation_log := log2
               iterations := it + 1
               error := none }, calls)
      | none => do
        let next ← script calls
        rlmLoop script toolExec next log2 (it + 1) (calls + 1) fuel

/-- `max_iterations = 20` (line 423). -/
def MAX_ITERATIONS : Nat := 20

/-- The two seed log entries (lines 417-420). -/
def seedLog (q : String) : List LogEntry :=
  [{ role := "system", entryType := none, content := "RLM Root LM started" },
   { role := "user", entryType := none, content := q }]

/-- The body of the outer `try` of `process_user_query`: initial backend
call (lines 409-414), then the iteration loop.  Returns the result together
with the total number of backend calls made. -/
def runCore (script : Nat → Except String LMResponse)
    (toolExec : ToolCall → Except String String) (q : String) :
    Except String (RLMResult × Nat) := do
  let resp ← script 0
  rlmLoop script toolExec resp (seedLog q) 0 1 MAX_ITERATIONS

/-- `TrueRLMAgent.process_user_query` (lines 390-538): the `except` clause
(lines 527-538) catches any raised exception and returns the error-shaped
result with `iterations = 0` and an empty log. -/
def process_user_query (script : Nat → Except String LMResponse)
    (toolExec : ToolCall → Except String String) (q : String) : RLMResult :=
  match runCore script toolExec q with
  | .ok (r, _) => r
  | .error e =>
    { answer := "An error occurred while processing your request: " ++ e
      reasoning := "Error in RLM processing"
      context_sources := []
      conversation_log := []
      iterations := 0
      error := some e }

/-- Number of Model Backend calls made by a (successful) run — the
instrumentation component of `runCore`. -/
def backend_calls (script : Nat → Except String LMResponse)
    (toolExec : ToolCall → Except String String) (q : String) : Nat :=
  match runCore script toolExec q with
  | .ok (_, c) => c
  | .error _ => 0

/-- Number of log entries of a given `type` key. -/
def countType (ty : String) (log : List LogEntry) : Nat :=
  (log.filter (fun en => decide (en.entryType = some ty))).length

/-- A scripted response carrying exactly one non-final tool call. -/
def nonFinalSingle (r : Except String LMResponse) : Prop :=
  ∃ c tc, r = .ok (.toolMessage c [tc]) ∧ tc.name ≠ "final_answer"

/-- A scripted response carrying exactly one tool call, a `final_answer`
with arguments `fargs`. -/
def finalSingle (fargs : ToolCallArgs) (r : Except String LMResponse) : Prop :=
  ∃ c i, r = .ok (.toolMessage c [⟨i, "final_answer", fargs⟩])

/-- The backend response consumed at position `n` of a run whose current
response is `resp` and whose call counter is `calls`. -/
def chainResp (script : Nat → Except String LMResponse) (calls : Nat)
    (resp : LMResponse) : Nat → Except String LMResponse
  | 0 => .ok resp
  | n + 1 => script (calls + n)

/-- A scripted backend that always requests a single `get_context_overview`
call. -/
def c1Script : Nat → Except String LMResponse :=
  fun _ => .ok (.toolMessage none
    [⟨"1", "get_context_overview", ⟨none, none, none⟩⟩])

/-- A tool executor that always succeeds. -/
def okToolExec : ToolCall → Except String String := fun _ => .ok "payload"

/-- A scripted backend: one `get_context_overview` request, then a
`final_answer`. -/
def c2Script : Nat → Except String LMResponse := fun n =>
  if n = 1 then
    .ok (.toolMessage none
      [⟨"2", "final_answer", ⟨some "42", some "why", some ["s1"]⟩⟩])
  else
    .ok (.toolMessage none [⟨"1", "get_context_overview", ⟨none, none, none⟩⟩])

/-- A scripted backend that completes one tool iteration and then raises on
the second call. -/
def c3Script : Nat → Except String LMResponse := fun n =>
  if n = 1 then .error "backend down"
  else .ok (.toolMessage none [⟨"1", "get_context_overview", ⟨none, none, none⟩⟩])

/-! ## Lemmas about the greedy walk and the score -/

theorem gwalk_nil (t : List Char) (i : Nat) : gwalk [] t i = ([], []) := by
  cases t <;> rfl

theorem gwalk_length (p t : List Char) (i : Nat) :
    (gwalk p t i).1.length + (gwalk p t i).2.length = p.length := by
  induction t generalizing p i with
  | nil => cases p <;> simp [gwalk]
  | cons tc ts ih =>
    cases p with
    | nil => simp [gwalk]
    | cons pc ps =>
      by_cases h : pc = tc
      · have := ih ps (i + 1)
        simp only [gwalk, h, if_pos, List.length_cons]
        omega
      · simpa [gwalk, h] using ih (pc :: ps) (i + 1)

theorem gwalk_mem_lt (p t : List Char) (i : Nat) :
    ∀ j ∈ (gwalk p t i).1, i ≤ j ∧ j < i + t.length := by
  induction t generalizing p i with
  | nil => cases p <;> simp [gwalk]
  | cons tc ts ih =>
    cases p with
    | nil => simp [gwalk]
    | cons pc ps =>
      by_cases h : pc = tc
      · intro j hj
        simp only [gwalk, h, if_pos] at hj
        simp only [List.mem_cons] at hj
        rcases hj with rfl | hj
        · simp
        · have := ih ps (i + 1) j hj
          simp only [List.length_cons]
          omega
      · intro j hj
        simp only [gwalk, h, if_neg, ite_false] at hj
        have := ih (pc :: ps) (i + 1) j hj
        simp only [List.length_cons]
        omega

theorem countContig_succ_le (m : List Nat) (h : m ≠ []) :
    countContig m + 1 ≤ m.length := by
  induction m with
  | nil => simp at h
  | cons a rest ih =>
    cases rest with
    | nil => simp [countContig]
    | cons b r =>
      have := ih (by simp)
      simp only [countContig, List.length_cons] at *
      split <;> omega

theorem wbCount_le (t : List Char) (m : List Nat) : wbCount t m ≤ m.length := by
  unfold wbCount
  exact List.length_filter_le _ _

/-- Case equation: the walk did not consume the whole pattern. -/
theorem scoreList_of_fail {p t : List Char} (h : (gwalk p t 0).2 ≠ []) :
    scoreList p t = 0 := by
  unfold scoreList
  simp [h]

/-- Case equation: empty match list (in particular, empty pattern). -/
theorem scoreList_of_no_matches {p t : List Char}
    (h2 : (gwalk p t 0).2 = []) (h1 : (gwalk p t 0).1 = []) :
    scoreList p t = 0 := by
  unfold scoreList
  simp [h1, h2]

/-- Case equation: successful walk with a nonempty match list. -/
theorem scoreList_of_success {p t : List Char}
    (h2 : (gwalk p t 0).2 = []) (h1 : (gwalk p t 0).1 ≠ []) :
    scoreList p t =
      min (((gwalk p t 0).1.length : ℚ) / (p.length : ℚ) * 0.5
        + ((countContig (gwalk p t 0).1 : ℚ) / (p.length : ℚ)) * 0.3
        + ((wbCount t (gwalk p t 0).1 : ℚ) / (p.length : ℚ)) * 0.1
        + max 0 (1 - ((gwalk p t 0).1.headD 0 : ℚ) / (t.length : ℚ)) * 0.1) 1 := by
  unfold scoreList
  simp [h1, h2]

theorem scoreList_gt_half {p t : List Char} (hp : p ≠ [])
    (h2 : (gwalk p t 0).2 = []) : (0.5 : ℚ) < scoreList p t := by
  have hlen := gwalk_length p t 0
  rw [h2] at hlen
  simp only [List.length_nil, Nat.add_zero] at hlen
  have hplen : 0 < p.length := List.length_pos.mpr hp
  have h1 : (gwalk p t 0).1 ≠ [] := by
    intro hc
    rw [hc] at hlen
    simp at hlen
    omega
  rw [scoreList_of_success h2 h1]
  set m := (gwalk p t 0).1 with hm
  obtain ⟨a, rest, hcons⟩ := List.exists_cons_of_ne_nil h1
  have hhead : m.headD 0 ∈ m := by rw [hcons]; simp
  have hbound := gwalk_mem_lt p t 0 (m.headD 0) hhead
  have htpos : 0 < t.length := by omega
  have hn : (0 : ℚ) < (p.length : ℚ) := by exact_mod_cast hplen
  have hL : (0 : ℚ) < (t.length : ℚ) := by exact_mod_cast htpos
  have hb2 : m.headD 0 < t.length := by
    have := hbound.2
    omega
  have hmL : ((m.headD 0 : Nat) : ℚ) < (t.length : ℚ) := by
    exact_mod_cast hb2
  have hediv : ((m.headD 0 : Nat) : ℚ) / (t.length : ℚ) < 1 :=
    (div_lt_one hL).mpr hmL
  have hepos : (0 : ℚ) < 1 - ((m.headD 0 : Nat) : ℚ) / (t.length : ℚ) := by
    linarith
  have hemax : (0 : ℚ) < max 0 (1 - ((m.headD 0 : Nat) : ℚ) / (t.length : ℚ)) :=
    lt_max_of_lt_right hepos
  have hbase : ((m.length : Nat) : ℚ) / (p.length : ℚ) = 1 := by
    rw [hlen]
    exact div_self hn.ne'
  have hc0 : (0 : ℚ) ≤ ((countContig m : Nat) : ℚ) / (p.length : ℚ) :=
    div_nonneg (by positivity) hn.le
  have hw0 : (0 : ℚ) ≤ ((wbCount t m : Nat) : ℚ) / (p.length : ℚ) :=
    div_nonneg (by positivity) hn.le
  apply lt_min
  · rw [hbase]
    nlinarith
  · norm_num

theorem scoreList_nonneg (p t : List Char) : 0 ≤ scoreList p t := by
  by_cases h2 : (gwalk p t 0).2 = []
  · by_cases h1 : (gwalk p t 0).1 = []
    · rw [scoreList_of_no_matches h2 h1]
    · rw [scoreList_of_success h2 h1]
      have hn : (0 : ℚ) ≤ (p.length : ℚ) := by positivity
      apply le_min _ (by norm_num)
      have e0 : (0 : ℚ) ≤ max 0 (1 - (((gwalk p t 0).1.headD 0 : Nat) : ℚ) / (t.length : ℚ)) :=
        le_max_left _ _
      have b0 : (0 : ℚ) ≤ (((gwalk p t 0).1.length : Nat) : ℚ) / (p.length : ℚ) := by positivity
      have c0 : (0 : ℚ) ≤ ((countContig (gwalk p t 0).1 : Nat) : ℚ) / (p.length : ℚ) := by positivity
      have w0 : (0 : ℚ) ≤ ((wbCount t (gwalk p t 0).1 : Nat) : ℚ) / (p.length : ℚ) := by positivity
      nlinarith
  · rw [scoreList_of_fail h2]

theorem scoreList_le_one (p t : List Char) : scoreList p t ≤ 1 := by
  by_cases h2 : (gwalk p t 0).2 = []
  · by_cases h1 : (gwalk p t 0).1 = []
    · rw [scoreList_of_no_matches h2 h1]; norm_num
    · rw [scoreList_of_success h2 h1]
      exact min_le_right _ _
  · rw [scoreList_of_fail h2]; norm_num

theorem scoreList_lt_one (p t : List Char) : scoreList p t < 1 := by
  by_cases h2 : (gwalk p t 0).2 = []
  · by_cases h1 : (gwalk p t 0).1 = []
    · rw [scoreList_of_no_matches h2 h1]; norm_num
    · rw [scoreList_of_success h2 h1]
      have hlen := gwalk_length p t 0
      rw [h2] at hlen
      simp only [List.length_nil, Nat.add_zero] at hlen
      have hmpos : 0 < (gwalk p t 0).1.length := List.length_pos.mpr h1
      have hplen : 0 < p.length := by omega
      set m := (gwalk p t 0).1 with hm
      have hn : (0 : ℚ) < (p.length : ℚ) := by exact_mod_cast hplen
      apply min_lt_iff.mpr
      left
      have hbase : ((m.length : Nat) : ℚ) / (p.length : ℚ) = 1 := by
        rw [hlen]
        exact div_self hn.ne'
      have hcle : countContig m + 1 ≤ m.length := countContig_succ_le m h1
      have hcq : ((countContig m : Nat) : ℚ) ≤ (p.length : ℚ) - 1 := by
        rw [← hlen]
        have : (countContig m : ℚ) + 1 ≤ (m.length : ℚ) := by exact_mod_cast hcle
        linarith
      have hcdiv : ((countContig m : Nat) : ℚ) / (p.length : ℚ)
          ≤ ((p.length : ℚ) - 1) / (p.length : ℚ) :=
        div_le_div_of_nonneg_right hcq hn.le
      have hfrac : ((p.length : ℚ) - 1) / (p.length : ℚ) < 1 := by
        rw [div_lt_one hn]
        linarith
      have hwle : wbCount t m ≤ m.length := wbCount_le t m
      have hwq : ((wbCount t m : Nat) : ℚ) ≤ (p.length : ℚ) := by
        rw [← hlen]
        exact_mod_cast hwle
      have hwdiv : ((wbCount t m : Nat) : ℚ) / (p.length : ℚ) ≤ 1 := by
        rw [div_le_one hn]
        exact hwq
      have he1 : max 0 (1 - ((m.headD 0 : Nat) : ℚ) / (t.length : ℚ)) ≤ 1 := by
        apply max_le (by norm_num)
        have : (0 : ℚ) ≤ ((m.headD 0 : Nat) : ℚ) / (t.length : ℚ) := by positivity
        linarith
      rw [hbase]
      nlinarith
  · rw [scoreList_of_fail h2]; norm_num

theorem scoreList_eq_zero_iff (p t : List Char) :
    scoreList p t = 0 ↔ p = [] ∨ (gwalk p t 0).2 ≠ [] := by
  constructor
  · intro h
    by_cases h2 : (gwalk p t 0).2 = []
    · left
      by_contra hp
      have := scoreList_gt_half hp h2
      rw [h] at this
      norm_num at this
    · right; exact h2
  · intro h
    rcases h with h | h
    · subst h
      have h2 : (gwalk ([] : List Char) t 0).2 = [] := by rw [gwalk_nil]
      have h1 : (gwalk ([] : List Char) t 0).1 = [] := by rw [gwalk_nil]
      exact scoreList_of_no_matches h2 h1
    · exact scoreList_of_fail h

theorem scoreList_zero_or_gt_half (p t : List Char) :
    scoreList p t = 0 ∨ (0.5 : ℚ) < scoreList p t := by
  by_cases h2 : (gwalk p t 0).2 = []
  · by_cases h1 : (gwalk p t 0).1 = []
    · exact Or.inl (scoreList_of_no_matches h2 h1)
    · right
      have hlen := gwalk_length p t 0
      rw [h2] at hlen
      simp only [List.length_nil, Nat.add_zero] at hlen
      have hp : p ≠ [] := by
        intro hc
        have hml := List.length_pos.mpr h1
        rw [hlen, hc] at hml
        simp at hml
      exact scoreList_gt_half hp h2
  · exact Or.inl (scoreList_of_fail h2)

theorem lowerList_eq_nil_iff (s : String) : lowerList s = [] ↔ s = "" := by
  constructor
  · intro h
    cases s with
    | mk data =>
      unfold lowerList at h
      simp only [String.toList] at h
      have : data = [] := List.map_eq_nil_iff.mp h
      rw [this]
  · intro h
    rw [h]
    rfl

theorem lowerList_length (s : String) : (lowerList s).length = s.length := by
  unfold lowerList
  cases s with
  | mk data => simp [String.toList, String.length]

/-- C5 — `fuzzy_match_score(pattern, text)` always lies in `[0, 1]`; it
equals `0` exactly when the pattern is empty or the greedy case-insensitive
left-to-right walk of the text fails to consume every character of the
pattern; and it is always strictly below `1`, so in particular it returns
`1.0` only for exact, fully contiguous, start-anchored matches (vacuously:
it never returns `1.0`; the weighted sum is at most `1 - 0.3/len(pattern)`).
(Amended from the claim, which asserts that the score is `0` exactly when
the walk fails: the empty pattern also scores `0` although the walk
trivially consumes all of it.) -/
theorem fuzzy_match_score_bounds_and_zero (pattern text : String) :
    0 ≤ fuzzy_match_score pattern text ∧
    fuzzy_match_score pattern text ≤ 1 ∧
    (fuzzy_match_score pattern text = 0 ↔
      pattern = "" ∨ ¬ greedyConsumed pattern text) ∧
    fuzzy_match_score pattern text < 1 := by
  unfold fuzzy_match_score greedyConsumed
  refine ⟨scoreList_nonneg _ _, scoreList_le_one _ _, ?_, scoreList_lt_one _ _⟩
  rw [scoreList_eq_zero_iff, lowerList_eq_nil_iff]

/-- C5 counterexample to the claim as stated: on the empty pattern the
greedy walk consumes every pattern character, yet the score is `0`. -/
theorem fuzzy_match_score_zero_on_empty_pattern :
    fuzzy_match_score "" "abc" = 0 ∧ greedyConsumed "" "abc" := by
  constructor
  · decide
  · decide

/-- The per-window bodies of `find_match_positions` and
`find_match_positions_spec` agree: a window's score is either `0` or
strictly above `0.5`, so the `> 0.5` and `≥ 0.5` thresholds coincide. -/
theorem fmp_point (p w : List Char) (i : Nat) :
    (if scoreList p w > 0.5 then
      (if (gwalk p w 0).2 = [] then
        some (i + (gwalk p w 0).1.headD 0, i + (gwalk p w 0).1.getLastD 0 + 1)
       else none)
     else none)
    = (if scoreList p w ≥ 0.5 then
      (if (gwalk p w 0).2 = [] then
        some (i + (gwalk p w 0).1.headD 0, i + (gwalk p w 0).1.getLastD 0 + 1)
       else none)
     else none) := by
  rcases scoreList_zero_or_gt_half p w with h | h
  · rw [if_neg (by rw [gt_iff_lt, h]; norm_num),
      if_neg (by rw [ge_iff_le, h]; norm_num)]
  · rw [if_pos h, if_pos (le_of_lt h)]

/-- C6 — `find_match_positions` coincides with the spec's description
(window considered when its fuzzy score is at least 0.5, span recorded iff
the re-walk finds a full pattern match): the source's strict `> 0.5` test is
extensionally the same because a window's score is either `0` or strictly
above `0.5`.  Overlapping windows can record duplicate spans, which are not
deduplicated, as the concrete run on pattern `ab` and text `xxab` shows. -/
theorem find_match_positions_eq_spec :
    (∀ pattern text : String,
      find_match_positions pattern text = find_match_positions_spec pattern text) ∧
    find_match_positions "ab" "xxab" = [(2, 4), (2, 4)] := by
  constructor
  · intro pattern text
    simp only [find_match_positions, find_match_positions_spec]
    apply List.filterMap_congr
    intro i _
    exact fmp_point _ _ i
  · have h0 : scoreList (lowerList "ab")
        (((lowerList "xxab").drop 0).take (max (lowerList "ab").length 3 + 10)) > 0.5 :=
      scoreList_gt_half (by decide) (by decide)
    have h1 : scoreList (lowerList "ab")
        (((lowerList "xxab").drop 1).take (max (lowerList "ab").length 3 + 10)) > 0.5 :=
      scoreList_gt_half (by decide) (by decide)
    simp only [find_match_positions]
    have hrange : ((((lowerList "xxab").length : Int))
        - (max (lowerList "ab").length 3 : Nat) + 1).toNat = 2 := by decide
    rw [hrange]
    have h2 : List.range 2 = [0, 1] := by decide
    rw [h2]
    simp only [List.filterMap_cons, List.filterMap_nil]
    rw [if_pos h0, if_pos h1]
    rw [if_pos (show (gwalk (lowerList "ab")
        (((lowerList "xxab").drop 0).take (max (lowerList "ab").length 3 + 10)) 0).2 = []
      by decide)]
    rw [if_pos (show (gwalk (lowerList "ab")
        (((lowerList "xxab").drop 1).take (max (lowerList "ab").length 3 + 10)) 0).2 = []
      by decide)]
    decide

/-! ## Lemmas about span finding, search and snippets -/

theorem find_match_positions_nil {pattern text : String}
    (h : text.length < max pattern.length 3) :
    find_match_positions pattern text = [] := by
  simp only [find_match_positions]
  have hlen : (lowerList text).length = text.length := lowerList_length text
  have hplen : (lowerList pattern).length = pattern.length := lowerList_length pattern
  have hz : (((lowerList text).length : Int)
      - ((max (lowerList pattern).length 3 : Nat) : Int) + 1).toNat = 0 := by
    rw [hlen, hplen]
    omega
  rw [hz]
  rfl

theorem insSorted_perm {α : Type} (le : α → α → Bool) (x : α) (l : List α) :
    (insSorted le x l).Perm (x :: l) := by
  induction l with
  | nil => simp [insSorted]
  | cons y ys ih =>
    unfold insSorted
    split
    · exact List.Perm.refl _
    · exact (ih.cons y).trans (List.Perm.swap x y ys)

theorem sortByKey_perm {α : Type} (le : α → α → Bool) (l : List α) :
    (sortByKey le l).Perm l := by
  induction l with
  | nil => simp [sortByKey]
  | cons x xs ih =>
    have : sortByKey le (x :: xs) = insSorted le x (sortByKey le xs) := rfl
    rw [this]
    exact (insSorted_perm le x (sortByKey le xs)).trans (ih.cons x)

theorem mem_search_messages {messages : List Msg} {query : String} {lim : Nat}
    {r : SearchResult} (h : r ∈ search_messages messages query lim) :
    ∃ m, m ∈ messages ∧ mkSearchResult query m = some r := by
  unfold search_messages at h
  have h1 := List.mem_of_mem_take h
  have h2 := (sortByKey_perm _ _).mem_iff.mp h1
  exact List.mem_filterMap.mp h2

theorem mkSearchResult_some {query : String} {m : Msg} {r : SearchResult}
    (h : mkSearchResult query m = some r) :
    find_match_positions query m.content ≠ [] ∧ r.message_id = m.id ∧
    ∃ best : Nat × Nat, r.snippet = extract_snippet m.content best.1 best.2 1 := by
  unfold mkSearchResult at h
  cases hfmp : find_match_positions query m.content with
  | nil => rw [hfmp] at h; simp at h
  | cons best rest =>
    rw [hfmp] at h
    simp only [Option.some.injEq] at h
    subst h
    exact ⟨by simp [hfmp], rfl, ⟨best, rfl⟩⟩

/-- C10 — for any text shorter than `max(len(pattern), 3)` the slide range
of `find_match_positions` is empty (the range is computed without the `+10`
window buffer), hence no spans; consequently `search_messages` never yields
a result for a message whose content is shorter than 3 characters or
shorter than the query, even when the content equals the query exactly. -/
theorem find_match_positions_short_text :
    (∀ pattern text : String, text.length < max pattern.length 3 →
      find_match_positions pattern text = []) ∧
    (∀ (messages : List Msg) (query : String) (lim : Nat),
      (search_messages messages query lim).all (fun r =>
        messages.any (fun m =>
          m.id == r.message_id
            && decide (max query.length 3 ≤ m.content.length))) = true) := by
  constructor
  · intro pattern text h
    exact find_match_positions_nil h
  · intro messages query lim
    rw [List.all_eq_true]
    intro r hr
    obtain ⟨m, hm, heq⟩ := mem_search_messages hr
    obtain ⟨hne, hid, -⟩ := mkSearchResult_some heq
    rw [List.any_eq_true]
    refine ⟨m, hm, ?_⟩
    have hle : max query.length 3 ≤ m.content.length := by
      by_contra hc
      exact hne (find_match_positions_nil (by omega))
    simp [hid, hle]

/-- C10 witness: the instance with pattern `hello` and the two-character
text `hi` — the content equals no prefix requirement, yet no span at all. -/
theorem find_match_positions_short_text_witness :
    find_match_positions "hello" "hi" = [] :=
  find_match_positions_short_text.1 "hello" "hi" (by decide)

/-- The final truncation step of `extract_snippet` caps the result at 303
characters: 300 kept characters plus the three-character ellipsis. -/
theorem extract_snippet_le (content : String) (ms me cs : Nat) :
    (extract_snippet content ms me cs).length ≤ 303 := by
  simp only [extract_snippet]
  split
  · simp only [String.length, List.length_append, List.length_take]
    have h3 : ("...".toList).length = 3 := by decide
    omega
  · rename_i hlen
    simp only [String.length]
    omega

/-- C7 (amended) — every snippet produced by `extract_snippet`, and hence
every `SearchResult.snippet` produced by `search_messages`, is at most
**303** characters long: the sentence-aligned excerpt is truncated to 300
characters and then the three-character ellipsis marker `...` is appended,
so the cap is 303, not the claimed 300. -/
theorem extract_snippet_bounded :
    (∀ (content : String) (ms me cs : Nat),
      (extract_snippet content ms me cs).length ≤ 303) ∧
    (∀ (messages : List Msg) (query : String) (lim : Nat),
      (search_messages messages query lim).all
        (fun r => decide (r.snippet.length ≤ 303)) = true) := by
  constructor
  · exact extract_snippet_le
  · intro messages query lim
    rw [List.all_eq_true]
    intro r hr
    obtain ⟨m, hm, heq⟩ := mem_search_messages hr
    obtain ⟨-, -, best, hsnip⟩ := mkSearchResult_some heq
    simp only [decide_eq_true_eq]
    rw [hsnip]
    exact extract_snippet_le _ _ _ _

set_option maxRecDepth 8000 in
/-- C7 counterexample to the claim as stated: a single 301-character
sentence yields a snippet of exactly 303 characters, refuting the ≤ 300
bound. -/
theorem extract_snippet_303 :
    (extract_snippet (String.mk (List.replicate 301 'a')) 0 1 1).length = 303
    ∧ ¬ ((extract_snippet (String.mk (List.replicate 301 'a')) 0 1 1).length ≤ 300) := by
  constructor
  · decide
  · decide

/-! ## Lemmas about context expansion (C9) -/

theorem findIdxGo_lt_length {mid : String} {l : List Msg} {i : Nat}
    (h : findIdxGo mid l = some i) : i < l.length := by
  induction l generalizing i with
  | nil => simp [findIdxGo] at h
  | cons m rest ih =>
    simp only [findIdxGo] at h
    split at h
    · simp only [Option.some.injEq] at h
      simp only [List.length_cons]
      omega
    · split at h
      · simp at h
      · rename_i j hj
        simp only [Option.some.injEq] at h
        have := ih hj
        simp only [List.length_cons]
        omega

theorem findIdxGo_isSome_of_mem {mid : String} {l : List Msg}
    (h : ∃ m, m ∈ l ∧ m.id = mid) : ∃ i, findIdxGo mid l = some i := by
  induction l with
  | nil => obtain ⟨m, hm, -⟩ := h; simp at hm
  | cons a rest ih =>
    by_cases ha : a.id = mid
    · exact ⟨0, by simp [findIdxGo, ha]⟩
    · obtain ⟨m, hm, hmid⟩ := h
      rcases List.mem_cons.mp hm with rfl | hm2
      · exact absurd hmid ha
      · obtain ⟨j, hj⟩ := ih ⟨m, hm2, hmid⟩
        refine ⟨j + 1, ?_⟩
        simp only [findIdxGo, if_neg ha]
        rw [hj]

theorem pySlice_singleton {α : Type} {l : List α} {i : Nat} (h : i < l.length) :
    ∃ a, pySlice l i (i + 1) = [a] := by
  apply List.length_eq_one.mp
  simp only [pySlice, List.length_drop, List.length_take, inf_eq_min,
    sup_eq_max, min_def, max_def]
  split_ifs <;> omega

/-- C9 — `expand_context` with `direction="both"` returns exactly the
`before` result concatenated with the `after` result minus its leading
pivot occurrence; in particular it is, as a set, the union of the `before`
and `after` results deduplicated at the pivot. -/
theorem expand_context_both_union (messages : List Msg) (mid : String) (p : Int)
    (hmem : ∃ m, m ∈ messages ∧ m.id = mid) :
    expand_context messages mid "both" p =
      expand_context messages mid "before" p
        ++ (expand_context messages mid "after" p).drop 1 ∧
    ∀ x, x ∈ expand_context messages mid "both" p ↔
      (x ∈ expand_context messages mid "before" p
        ∨ x ∈ expand_context messages mid "after" p) := by
  obtain ⟨i, hidx⟩ := findIdxGo_isSome_of_mem hmem
  obtain ⟨tm, hT⟩ := pySlice_singleton (findIdxGo_lt_length hidx)
  simp only [expand_context, hidx, hT]
  have hb : ¬ (("before" : String) = "after" ∨ ("before" : String) = "both") := by
    decide
  have ha : ¬ (("after" : String) = "before" ∨ ("after" : String) = "both") := by
    decide
  constructor
  · simp [hb, ha]
  · intro x
    simp only [hb, ha, or_true, true_or, if_true, if_false, ite_true, ite_false,
      List.mem_append, List.append_nil, List.nil_append, List.mem_cons,
      List.mem_singleton]
    tauto

/-- C9 witness: a four-message history with the pivot at index 2. -/
theorem expand_context_both_union_witness :
    expand_context
        [⟨"1", "u", "a", "t"⟩, ⟨"2", "u", "b", "t"⟩,
         ⟨"3", "u", "c", "t"⟩, ⟨"4", "u", "d", "t"⟩] "3" "both" 1 =
      expand_context
        [⟨"1", "u", "a", "t"⟩, ⟨"2", "u", "b", "t"⟩,
         ⟨"3", "u", "c", "t"⟩, ⟨"4", "u", "d", "t"⟩] "3" "before" 1
        ++ (expand_context
        [⟨"1", "u", "a", "t"⟩, ⟨"2", "u", "b", "t"⟩,
         ⟨"3", "u", "c", "t"⟩, ⟨"4", "u", "d", "t"⟩] "3" "after" 1).drop 1 :=
  (expand_context_both_union _ "3" 1
    ⟨⟨"3", "u", "c", "t"⟩, by decide, rfl⟩).1

/-! ## Lemmas about `get_context_chunk` (C4) -/

theorem truncGo_length_le (l : List Msg) (r mx : Int) :
    (truncGo l r mx).length ≤ l.length := by
  induction l generalizing r with
  | nil => simp [truncGo]
  | cons m rest ih =>
    unfold truncGo
    split
    · simp only [List.length_cons]
      exact Nat.succ_le_succ (ih _)
    · simp

theorem chunkTerm_le (l : List Msg) (c mx : Int) :
    (if c > mx then truncGo l 0 mx else l).length ≤ l.length := by
  split
  · exact truncGo_length_le _ _ _
  · exact le_refl _

theorem pySlice_length_le {α : Type} (l : List α) (a b : Int)
    (ha : 0 ≤ a) (hb : 0 ≤ b) :
    (pySlice l a b).length ≤ (b - a).toNat := by
  simp only [pySlice, List.length_drop, List.length_take, inf_eq_min,
    sup_eq_max, min_def, max_def]
  split_ifs <;> omega

theorem pySlice_length_le_sub {α : Type} (l : List α) (a b : Int)
    (ha : 0 ≤ a) (hal : a ≤ (l.length : Int)) :
    ((pySlice l a b).length : Int) + a ≤ (l.length : Int) := by
  simp only [pySlice, List.length_drop, List.length_take, inf_eq_min,
    sup_eq_max, min_def, max_def]
  split_ifs <;> push_cast <;> omega

/-- C4 (amended) — `get_context_chunk`: the reported error occurs exactly
when the clamped start index reaches the history length; in every successful
payload the reported `start_index` is the start argument clamped below at
`0` and lies in `[0, total)`, the reported `end_index` lies in `[0, total]`,
`has_more` is true iff the (given or defaulted) end index is below the
total, and — **provided the end index is nonnegative** — the chunk length
never exceeds `end_index - start_index`.  (A negative `end_index` is not
clamped: it selects a Python-style from-the-end slice, which is what the
counterexample exhibits.) -/
theorem get_context_chunk_clamped (history : List Msg) (start_arg : Int)
    (end_arg : Option Int) (max_tokens_arg : Option Int) :
    (∀ m, get_context_chunk history start_arg end_arg max_tokens_arg = .err m →
      (history.length : Int) ≤ (if start_arg < 0 then 0 else start_arg)) ∧
    ((history.length : Int) ≤ (if start_arg < 0 then 0 else start_arg) →
      ∃ m, get_context_chunk history start_arg end_arg max_tokens_arg = .err m) ∧
    (∀ chunk si ei tc tok hm,
      get_context_chunk history start_arg end_arg max_tokens_arg
        = .payload chunk si ei tc tok hm →
      si = (if start_arg < 0 then 0 else start_arg) ∧
      0 ≤ si ∧ si < (history.length : Int) ∧
      ei = si + chunk.length ∧ 0 ≤ ei ∧ ei ≤ (history.length : Int) ∧
      (hm = true ↔ end_arg.getD (start_arg + 10) < (history.length : Int)) ∧
      (0 ≤ end_arg.getD (start_arg + 10) →
        chunk.length ≤ (end_arg.getD (start_arg + 10) - start_arg).toNat)) := by
  simp only [get_context_chunk]
  obtain ⟨e, he⟩ : ∃ x : Int, end_arg.getD (start_arg + 10) = x := ⟨_, rfl⟩
  obtain ⟨mt, hmt⟩ : ∃ x : Int, max_tokens_arg.getD 2000 = x := ⟨_, rfl⟩
  rw [he, hmt]
  obtain ⟨s1, hs1v⟩ :
      ∃ x : Int, (if start_arg < 0 then (0 : Int) else start_arg) = x := ⟨_, rfl⟩
  have hs1n : 0 ≤ s1 := by rw [← hs1v]; split <;> omega
  have hsa : start_arg ≤ s1 := by rw [← hs1v]; split <;> omega
  rw [hs1v]
  obtain ⟨e1, he1v⟩ : ∃ x : Int,
      (if e > (history.length : Int) then (history.length : Int) else e) = x :=
    ⟨_, rfl⟩
  have he1a : e1 ≤ e := by rw [← he1v]; split <;> omega
  have he1n : 0 ≤ e → 0 ≤ e1 := by
    intro h
    rw [← he1v]
    split <;> omega
  have he1iff : e1 < (history.length : Int) ↔ e < (history.length : Int) := by
    rw [← he1v]
    constructor
    · intro h
      split at h <;> omega
    · intro h
      split <;> omega
  rw [he1v]
  by_cases herr : s1 ≥ (history.length : Int)
  · rw [if_pos herr]
    refine ⟨fun m _ => herr, fun _ => ⟨_, rfl⟩, ?_⟩
    intro chunk si ei tc tok hm hcontra
    exact absurd hcontra (by simp)
  · rw [if_neg herr]
    push_neg at herr
    refine ⟨fun m hcontra => absurd hcontra (by simp),
      fun hc => absurd hc (by omega), ?_⟩
    intro chunk si ei tc tok hm hpay
    rw [ChunkOut.payload.injEq] at hpay
    obtain ⟨hchunk, hsi, hei, -, -, hhm⟩ := hpay
    subst hsi hei hchunk
    have hlen1 := chunkTerm_le (pySlice history s1 e1)
      (tokensOf (pySlice history s1 e1) : Int) mt
    have hub : ((pySlice history s1 e1).length : Int) + s1 ≤ (history.length : Int) :=
      pySlice_length_le_sub history s1 e1 hs1n herr.le
    have hcast : (((if (tokensOf (pySlice history s1 e1) : Int) > mt then
            truncGo (pySlice history s1 e1) 0 mt
          else pySlice history s1 e1).length : Nat) : Int)
        ≤ ((pySlice history s1 e1).length : Int) := by
      exact_mod_cast hlen1
    refine ⟨rfl, hs1n, herr, rfl, ?_, ?_, ?_, ?_⟩
    · exact add_nonneg hs1n (Int.natCast_nonneg _)
    · omega
    · rw [← hhm, decide_eq_true_iff]
      exact he1iff
    · intro hen
      have hb := pySlice_length_le history s1 e1 hs1n (he1n hen)
      have hmono : (e1 - s1).toNat ≤ (e - start_arg).toNat :=
        Int.toNat_le_toNat (by omega)
      exact le_trans (le_trans hlen1 hb) hmono

/-- C4 counterexample to the claim as stated: with `end_index = -1` on a
three-message history the end index is **not** clamped into `[0, 3]` — the
slice wraps Python-style to the last-but-one message — and the returned
chunk has 2 messages, exceeding `end_index - start_index = -1`. -/
theorem get_context_chunk_neg_end :
    get_context_chunk
        [⟨"1", "user", "aaaa", "t1"⟩, ⟨"2", "assistant", "bb", "t2"⟩,
         ⟨"3", "user", "cc", "t3"⟩] 0 (some (-1)) none
      = .payload [⟨"1", "user", "aaaa", "t1"⟩, ⟨"2", "assistant", "bb", "t2"⟩]
          0 2 2 6 true ∧
    ¬ ((2 : Int) ≤ (-1) - 0) := by
  constructor
  · decide
  · decide

/-- C4 witness: on the empty history every start index reports the
structured error payload. -/
theorem get_context_chunk_clamped_witness :
    ∃ m, get_context_chunk [] 0 none none = ChunkOut.err m :=
  (get_context_chunk_clamped [] 0 none none).2.1 (by decide)

/-! ## Lemmas about `get_context_overview` (C8) -/

theorem lookupRole_bumpRole (acc : List (String × Nat)) (x r : String) :
    lookupRole (bumpRole acc x) r
      = lookupRole acc r + (if x = r then 1 else 0) := by
  induction acc with
  | nil =>
    by_cases hxr : x = r <;> simp [bumpRole, lookupRole, hxr]
  | cons p rest ih =>
    obtain ⟨a, c⟩ := p
    by_cases hax : a = x
    · by_cases har : a = r
      · have hxr : x = r := hax.symm.trans har
        simp [bumpRole, lookupRole, hax, har, hxr]
      · have hxr : ¬ x = r := fun hc => har (hax.trans hc)
        simp [bumpRole, lookupRole, hax, har, hxr]
    · by_cases har : a = r
      · have hxr : ¬ x = r := fun hc => hax (har.trans hc.symm)
        have hrx : ¬ r = x := fun hc => hxr hc.symm
        simp [bumpRole, lookupRole, hax, har, hxr, hrx]
      · simp only [lookupRole] at ih
        simp [bumpRole, lookupRole, hax, har, ih]

theorem lookupRole_foldl (h : List Msg) (r : String) :
    ∀ acc, lookupRole (h.foldl (fun acc m => bumpRole acc m.role) acc) r
      = lookupRole acc r + (h.filter (fun m => decide (m.role = r))).length := by
  induction h with
  | nil => intro acc; simp
  | cons m rest ih =>
    intro acc
    simp only [List.foldl_cons]
    rw [ih (bumpRole acc m.role), lookupRole_bumpRole]
    by_cases hmr : m.role = r <;> simp [hmr] <;> omega

theorem lookupRole_countRoles (h : List Msg) (r : String) :
    lookupRole (countRoles h) r = (h.filter (fun m => decide (m.role = r))).length := by
  have := lookupRole_foldl h r []
  simpa [countRoles, lookupRole] using this

/-- C8 (amended) — `get_context_overview`: the empty history yields the
zeroed overview and no error; on a non-empty history, `total_messages` and
`total_tokens` (total character count of contents) are as claimed,
`message_distribution` maps each role to its message count, and
`potential_topics` holds at most 10 words, each of length above 4 with more
than two (substring) occurrences in the corpus — but **with repetitions**:
the source's list comprehension emits one entry per qualifying word
occurrence and never deduplicates, so the words need not be distinct. -/
theorem get_context_overview_props :
    (get_context_overview [] =
      { total_messages := 0, total_tokens := 0, conversation_span := "No messages",
        potential_topics := [], message_distribution := [],
        context_available := false, error := none }) ∧
    (∀ history : List Msg, history ≠ [] →
      (get_context_overview history).error = none ∧
      (get_context_overview history).total_messages = history.length ∧
      (get_context_overview history).total_tokens
        = (history.map (fun m => m.content.length)).sum ∧
      (get_context_overview history).potential_topics.length ≤ 10 ∧
      (∀ w ∈ (get_context_overview history).potential_topics,
        4 < w.length ∧ 2 < strCount (allText history) w.toList) ∧
      (∀ role, lookupRole ((get_context_overview history).message_distribution) role
        = (history.filter (fun m => decide (m.role = role))).length)) := by
  constructor
  · rfl
  · intro history hne
    have hemp : ¬ (history.isEmpty = true) := by
      simp [List.isEmpty_iff, hne]
    simp only [get_context_overview, if_neg hemp]
    refine ⟨by first | rfl | trivial, by first | rfl | trivial,
      by first | rfl | trivial, ?_, ?_, ?_⟩
    · simp only [commonWords, List.length_map]
      exact List.length_take_le _ _
    · intro w hw
      simp only [commonWords, List.mem_map] at hw
      obtain ⟨wl, hwl, hmk⟩ := hw
      have hwl2 := List.mem_of_mem_take hwl
      rw [List.mem_filter] at hwl2
      obtain ⟨-, hcond⟩ := hwl2
      rw [decide_eq_true_iff] at hcond
      subst hmk
      exact ⟨hcond.1, hcond.2⟩
    · intro role
      exact lookupRole_countRoles history role

/-- C8 counterexample to the claim as stated: the `potential_topics` of a
corpus containing the same qualifying word three times lists that word three
times — the words are not distinct. -/
theorem get_context_overview_dup_topics :
    (get_context_overview
      [⟨"1", "user", "marvel marvel marvel", "t"⟩]).potential_topics
      = ["marvel", "marvel", "marvel"] ∧
    ¬ (get_context_overview
      [⟨"1", "user", "marvel marvel marvel", "t"⟩]).potential_topics.Nodup := by
  constructor
  · decide
  · decide

/-- C8 witness: a three-message history split two `user` / one `assistant`
has `message_distribution` counting 2 and 1 respectively, and
`total_tokens` equal to the summed content lengths. -/
theorem get_context_overview_props_witness :
    lookupRole ((get_context_overview
      [⟨"1", "user", "ab", "t1"⟩, ⟨"2", "assistant", "cde", "t2"⟩,
       ⟨"3", "user", "f", "t3"⟩]).message_distribution) "user" = 2 ∧
    lookupRole ((get_context_overview
      [⟨"1", "user", "ab", "t1"⟩, ⟨"2", "assistant", "cde", "t2"⟩,
       ⟨"3", "user", "f", "t3"⟩]).message_distribution) "assistant" = 1 ∧
    (get_context_overview
      [⟨"1", "user", "ab", "t1"⟩, ⟨"2", "assistant", "cde", "t2"⟩,
       ⟨"3", "user", "f", "t3"⟩]).total_messages = 3 := by
  have h := get_context_overview_props.2
    [⟨"1", "user", "ab", "t1"⟩, ⟨"2", "assistant", "cde", "t2"⟩,
     ⟨"3", "user", "f", "t3"⟩] (by decide)
  refine ⟨?_, ?_, ?_⟩
  · rw [h.2.2.2.2.2 "user"]
    decide
  · rw [h.2.2.2.2.2 "assistant"]
    decide
  · rw [h.2.1]
    decide

/-! ## Lemmas about the orchestration loop (C1-C3) -/

theorem countType_append (ty : String) (l1 l2 : List LogEntry) :
    countType ty (l1 ++ l2) = countType ty l1 + countType ty l2 := by
  simp [countType, List.filter_append]

theorem processToolCalls_noFinal (toolExec : ToolCall → Except String String)
    (cs : List ToolCall) (hno : ∀ tc ∈ cs, tc.name ≠ "final_answer")
    (hexec : ∀ tc, ∃ s, toolExec tc = .ok s) :
    ∃ entries msgs, processToolCalls toolExec cs = .ok (entries, msgs, none) := by
  induction cs with
  | nil => exact ⟨[], [], rfl⟩
  | cons tc rest ih =>
    obtain ⟨s, hs⟩ := hexec tc
    obtain ⟨entries, msgs, hrec⟩ :=
      ih (fun t ht => hno t (List.mem_cons_of_mem _ ht))
    refine ⟨toolResultEntry tc :: entries, s :: msgs, ?_⟩
    have hname : ¬ tc.name = "final_answer" := hno tc (List.mem_cons_self tc rest)
    simp [processToolCalls, execute_context_tool, hname, hs, hrec,
      Except.map, Bind.bind, Except.bind]

theorem processToolCalls_final (toolExec : ToolCall → Except String String)
    (i : String) (fargs : ToolCallArgs) :
    processToolCalls toolExec [⟨i, "final_answer", fargs⟩]
      = .ok ([toolResultEntry ⟨i, "final_answer", fargs⟩], [], some fargs) := by
  simp [processToolCalls, execute_context_tool, Except.map, Bind.bind, Except.bind]

theorem processToolCalls_single (toolExec : ToolCall → Except String String)
    (tc : ToolCall) (hne : ¬ tc.name = "final_answer") (s : String)
    (hs : toolExec tc = .ok s) :
    processToolCalls toolExec [tc] = .ok ([toolResultEntry tc], [s], none) := by
  simp [processToolCalls, execute_context_tool, hne, hs,
    Except.map, Bind.bind, Except.bind]

theorem rlmLoop_never_final
    (script : Nat → Except String LMResponse)
    (toolExec : ToolCall → Except String String)
    (hscript : ∀ n, ∃ c cs, script n = .ok (.toolMessage c cs)
      ∧ ∀ tc ∈ cs, tc.name ≠ "final_answer")
    (hexec : ∀ tc, ∃ s, toolExec tc = .ok s) :
    ∀ (fuel : Nat) (c : Option String) (cs : List ToolCall)
      (log : List LogEntry) (it calls : Nat),
      (∀ tc ∈ cs, tc.name ≠ "final_answer") →
      ∃ log2, rlmLoop script toolExec (.toolMessage c cs) log it calls fuel
        = .ok (maxIterResult log2 (it + fuel), calls + fuel) := by
  intro fuel
  induction fuel with
  | zero =>
    intro c cs log it calls hno
    exact ⟨log, rfl⟩
  | succ f ih =>
    intro c cs log it calls hno
    obtain ⟨entries, msgs, hptc⟩ := processToolCalls_noFinal toolExec cs hno hexec
    obtain ⟨c2, cs2, hs2, hno2⟩ := hscript calls
    obtain ⟨log3, hrec⟩ :=
      ih c2 cs2 (log ++ [toolRequestEntry cs] ++ entries) (it + 1) (calls + 1) hno2
    refine ⟨log3, ?_⟩
    have e1 : (it + 1) + f = it + (f + 1) := by omega
    have e2 : (calls + 1) + f = calls + (f + 1) := by omega
    rw [e1, e2] at hrec
    simp only [rlmLoop, hptc, hs2, Bind.bind, Except.bind]
    exact hrec

set_option linter.unusedVariables false in
/-- C1 (amended) — if the scripted Model Backend always returns tool calls
and never a `final_answer`, and tool execution never faults, the loop
terminates at iteration 20 in the max-iterations outcome (fixed apology
answer and the "Max iterations reached without final answer" reasoning) —
but the orchestrator makes **21** Model Backend calls, not at most 20: one
initial call plus one at the end of each of the 20 iterations; the response
of the last call is discarded. -/
theorem process_user_query_max_iterations
    (script : Nat → Except String LMResponse)
    (toolExec : ToolCall → Except String String) (q : String)
    (hscript : ∀ n, ∃ c cs, script n = .ok (.toolMessage c cs)
      ∧ ∀ tc ∈ cs, tc.name ≠ "final_answer")
    (hexec : ∀ tc, ∃ s, toolExec tc = .ok s) :
    (process_user_query script toolExec q).answer = maxIterAnswer ∧
    (process_user_query script toolExec q).reasoning
      = "Max iterations reached without final answer" ∧
    (process_user_query script toolExec q).iterations = 20 ∧
    backend_calls script toolExec q = 21 := by
  obtain ⟨c, cs, hs0, hno⟩ := hscript 0
  obtain ⟨log2, hloop⟩ :=
    rlmLoop_never_final script toolExec hscript hexec 20 c cs (seedLog q) 0 1 hno
  have hcore : runCore script toolExec q = .ok (maxIterResult log2 20, 21) := by
    unfold runCore MAX_ITERATIONS
    rw [hs0]
    simp only [Bind.bind, Except.bind]
    exact hloop
  unfold process_user_query backend_calls
  rw [hcore]
  exact ⟨rfl, rfl, rfl, rfl⟩

/-- C1 counterexample to the claim as stated: the never-final scripted run
makes 21 backend calls, exceeding the claimed bound of 20. -/
theorem backend_calls_twentyone :
    backend_calls c1Script okToolExec "q" = 21 ∧
    ¬ (backend_calls c1Script okToolExec "q" ≤ 20) := by
  constructor
  · decide
  · decide

/-- C1 witness: the amended theorem instantiated at the concrete
never-final script. -/
theorem process_user_query_max_iterations_witness :
    (process_user_query c1Script okToolExec "q").iterations = 20 ∧
    (process_user_query c1Script okToolExec "q").answer = maxIterAnswer := by
  have h := process_user_query_max_iterations c1Script okToolExec "q"
    (fun n => ⟨none, [⟨"1", "get_context_overview", ⟨none, none, none⟩⟩],
      rfl, by decide⟩)
    (fun tc => ⟨"payload", rfl⟩)
  exact ⟨h.2.2.1, h.1⟩

theorem countType_req (cs : List ToolCall) :
    countType "tool_request" [toolRequestEntry cs] = 1 ∧
    countType "tool_result" [toolRequestEntry cs] = 0 := by
  constructor <;> simp [countType, toolRequestEntry]

theorem countType_res (tc : ToolCall) :
    countType "tool_request" [toolResultEntry tc] = 0 ∧
    countType "tool_result" [toolResultEntry tc] = 1 := by
  constructor <;> simp [countType, toolResultEntry]

theorem rlmLoop_final
    (toolExec : ToolCall → Except String String)
    (hexec : ∀ tc, ∃ s, toolExec tc = .ok s) (fargs : ToolCallArgs)
    (a : String) (hans : fargs.answer = some a) :
    ∀ (k : Nat), 1 ≤ k →
    ∀ (script : Nat → Except String LMResponse) (resp : LMResponse)
      (log : List LogEntry) (it calls fuel : Nat), k ≤ fuel →
      (∀ n, n + 1 < k → nonFinalSingle (chainResp script calls resp n)) →
      finalSingle fargs (chainResp script calls resp (k - 1)) →
      ∃ log2,
        rlmLoop script toolExec resp log it calls fuel
          = .ok ({ answer := a, reasoning := fargs.reasoning.getD "",
                   context_sources := fargs.context_sources.getD [],
                   conversation_log := log2, iterations := it + k,
                   error := none }, calls + (k - 1)) ∧
        log2.length = log.length + 2 * k ∧
        countType "tool_request" log2 = countType "tool_request" log + k ∧
        countType "tool_result" log2 = countType "tool_result" log + k := by
  intro k
  induction k with
  | zero => intro h; exact absurd h (by omega)
  | succ j ihj =>
    intro _ script resp log it calls fuel hfuel hpre hfin
    obtain ⟨f, rfl⟩ : ∃ f, fuel = f + 1 := ⟨fuel - 1, by omega⟩
    by_cases hj : j = 0
    · subst hj
      obtain ⟨c, i, hresp⟩ := hfin
      have hr : resp = .toolMessage c [⟨i, "final_answer", fargs⟩] :=
        Except.ok.inj hresp
      subst hr
      refine ⟨log ++ [toolRequestEntry [⟨i, "final_answer", fargs⟩]]
        ++ [toolResultEntry ⟨i, "final_answer", fargs⟩], ?_, ?_, ?_, ?_⟩
      · simp only [rlmLoop, processToolCalls_final toolExec i fargs,
          Bind.bind, Except.bind, hans]
        norm_num
      · simp only [List.length_append, List.length_cons, List.length_nil]
      · rw [countType_append, countType_append, (countType_req _).1,
          (countType_res _).1]
      · rw [countType_append, countType_append, (countType_req _).2,
          (countType_res _).2]
    · have hj1 : 1 ≤ j := by omega
      obtain ⟨c, tc, hresp, hname⟩ := hpre 0 (by omega)
      have hr : resp = .toolMessage c [tc] := Except.ok.inj hresp
      subst hr
      obtain ⟨s, hs⟩ := hexec tc
      have hnext : ∃ resp2, script calls = .ok resp2 := by
        by_cases hj2 : j = 1
        · subst hj2
          obtain ⟨c2, i2, hfin2⟩ := hfin
          exact ⟨_, hfin2⟩
        · obtain ⟨c2, tc2, h2, -⟩ := hpre 1 (by omega)
          exact ⟨_, h2⟩
      obtain ⟨resp2, hs2⟩ := hnext
      have hshift : ∀ n, chainResp script (calls + 1) resp2 n
          = chainResp script calls (.toolMessage c [tc]) (n + 1) := by
        intro n
        cases n with
        | zero => exact hs2.symm
        | succ m =>
          show script (calls + 1 + m) = script (calls + (m + 1))
          congr 1
          omega
      have hpre2 : ∀ n, n + 1 < j →
          nonFinalSingle (chainResp script (calls + 1) resp2 n) := by
        intro n hn
        rw [hshift n]
        exact hpre (n + 1) (by omega)
      have hfin2 : finalSingle fargs (chainResp script (calls + 1) resp2 (j - 1)) := by
        rw [hshift (j - 1)]
        have hjj : (j - 1) + 1 = j := by omega
        rw [hjj]
        exact hfin
      obtain ⟨log2, hloop, hlen, hcreq, hcres⟩ :=
        ihj hj1 script resp2 (log ++ [toolRequestEntry [tc]] ++ [toolResultEntry tc])
          (it + 1) (calls + 1) f (by omega) hpre2 hfin2
      refine ⟨log2, ?_, ?_, ?_, ?_⟩
      · have e1 : (it + 1) + j = it + (j + 1) := by omega
        have e2 : (calls + 1) + (j - 1) = calls + ((j + 1) - 1) := by omega
        rw [e1, e2] at hloop
        simp only [rlmLoop, processToolCalls_single toolExec tc hname s hs,
          hs2, Bind.bind, Except.bind]
        exact hloop
      · rw [hlen]
        simp only [List.length_append, List.length_cons, List.length_nil]
        omega
      · rw [hcreq, countType_append, countType_append, (countType_req _).1,
          (countType_res _).1]
        omega
      · rw [hcres, countType_append, countType_append, (countType_req _).2,
          (countType_res _).2]
        omega

/-- C2 — for a scripted backend whose first `k - 1` responses each carry
exactly one non-final tool call and whose `k`-th response carries exactly
one tool call, a `final_answer` (`k ≤ 20`), and whose tool executions never
fault, the loop terminates in the final-answer outcome with
`iterations = k`, the answer, reasoning and context sources taken from the
`final_answer` arguments (the latter two defaulted when absent), and a
conversation log of exactly `2k` entries beyond the two seed entries — one
`tool_request` and one `tool_result` entry per iteration. -/
theorem process_user_query_final_answer
    (k : Nat) (script : Nat → Except String LMResponse)
    (toolExec : ToolCall → Except String String) (q : String)
    (fargs : ToolCallArgs) (a : String)
    (hk1 : 1 ≤ k) (hk2 : k ≤ 20)
    (hpre : ∀ n, n + 1 < k → nonFinalSingle (script n))
    (hfin : finalSingle fargs (script (k - 1)))
    (hans : fargs.answer = some a)
    (hexec : ∀ tc, ∃ s, toolExec tc = .ok s) :
    (process_user_query script toolExec q).answer = a ∧
    (process_user_query script toolExec q).reasoning = fargs.reasoning.getD "" ∧
    (process_user_query script toolExec q).context_sources
      = fargs.context_sources.getD [] ∧
    (process_user_query script toolExec q).iterations = k ∧
    (process_user_query script toolExec q).conversation_log.length = 2 + 2 * k ∧
    countType "tool_request" (process_user_query script toolExec q).conversation_log
      = k ∧
    countType "tool_result" (process_user_query script toolExec q).conversation_log
      = k := by
  have hs0 : ∃ resp, script 0 = .ok resp := by
    by_cases hk : k = 1
    · subst hk
      obtain ⟨c, i, h⟩ := hfin
      exact ⟨_, h⟩
    · obtain ⟨c, tc, h, -⟩ := hpre 0 (by omega)
      exact ⟨_, h⟩
  obtain ⟨resp, hresp⟩ := hs0
  have hchain : ∀ n, chainResp script 1 resp n = script n := by
    intro n
    cases n with
    | zero => exact hresp.symm
    | succ m =>
      show script (1 + m) = script (m + 1)
      congr 1
      omega
  have hpre2 : ∀ n, n + 1 < k → nonFinalSingle (chainResp script 1 resp n) := by
    intro n hn
    rw [hchain n]
    exact hpre n hn
  have hfin2 : finalSingle fargs (chainResp script 1 resp (k - 1)) := by
    rw [hchain (k - 1)]
    exact hfin
  obtain ⟨log2, hloop, hlen, hcreq, hcres⟩ :=
    rlmLoop_final toolExec hexec fargs a hans k hk1 script resp (seedLog q)
      0 1 20 hk2 hpre2 hfin2
  have hcore : runCore script toolExec q
      = .ok ({ answer := a, reasoning := fargs.reasoning.getD "",
               context_sources := fargs.context_sources.getD [],
               conversation_log := log2, iterations := 0 + k,
               error := none }, 1 + (k - 1)) := by
    unfold runCore MAX_ITERATIONS
    rw [hresp]
    simp only [Bind.bind, Except.bind]
    exact hloop
  have hseedlen : (seedLog q).length = 2 := rfl
  have hseedreq : countType "tool_request" (seedLog q) = 0 := by
    simp [countType, seedLog]
  have hseedres : countType "tool_result" (seedLog q) = 0 := by
    simp [countType, seedLog]
  unfold process_user_query
  rw [hcore]
  refine ⟨rfl, rfl, rfl, by show 0 + k = k; omega, ?_, ?_, ?_⟩
  · show log2.length = 2 + 2 * k
    rw [hlen, hseedlen]
  · show countType "tool_request" log2 = k
    rw [hcreq, hseedreq]
    omega
  · show countType "tool_result" log2 = k
    rw [hcres, hseedres]
    omega

/-- C2 witness: the two-iteration scripted run terminates with the scripted
answer, `iterations = 2` and a log of `2 + 2*2 = 6` entries. -/
theorem process_user_query_final_answer_witness :
    (process_user_query c2Script okToolExec "q").answer = "42" ∧
    (process_user_query c2Script okToolExec "q").iterations = 2 ∧
    (process_user_query c2Script okToolExec "q").conversation_log.length = 6 := by
  have h := process_user_query_final_answer 2 c2Script okToolExec "q"
    ⟨some "42", some "why", some ["s1"]⟩ "42" (by omega) (by omega)
    (fun n hn => by
      have hn0 : n = 0 := by omega
      subst hn0
      exact ⟨none, ⟨"1", "get_context_overview", ⟨none, none, none⟩⟩, rfl,
        by decide⟩)
    ⟨none, "2", rfl⟩
    rfl
    (fun tc => ⟨"payload", rfl⟩)
  refine ⟨h.1, h.2.2.2.1, ?_⟩
  rw [h.2.2.2.2.1]

/-- C3 — any exception raised by the Model Backend call or by tool
execution during a run makes `process_user_query` return the error-shaped
result: the exception's message embedded in the fixed answer prefix,
`iterations = 0` and an **empty** conversation log (partial progress from
completed iterations is discarded). -/
theorem process_user_query_error
    (script : Nat → Except String LMResponse)
    (toolExec : ToolCall → Except String String) (q e : String)
    (h : runCore script toolExec q = .error e) :
    (process_user_query script toolExec q).answer
      = "An error occurred while processing your request: " ++ e ∧
    (process_user_query script toolExec q).reasoning = "Error in RLM processing" ∧
    (process_user_query script toolExec q).iterations = 0 ∧
    (process_user_query script toolExec q).conversation_log = [] ∧
    (process_user_query script toolExec q).error = some e := by
  unfold process_user_query
  rw [h]
  exact ⟨rfl, rfl, rfl, rfl, rfl⟩

/-- C3 witness: the scripted backend faults on its second call — after a
full first iteration had already produced log entries — and the result is
the error answer with `iterations = 0` and an empty log. -/
theorem process_user_query_error_witness :
    (process_user_query c3Script okToolExec "q").answer
      = "An error occurred while processing your request: " ++ "backend down" ∧
    (process_user_query c3Script okToolExec "q").iterations = 0 ∧
    (process_user_query c3Script okToolExec "q").conversation_log = [] := by
  have h := process_user_query_error c3Script okToolExec "q" "backend down"
    (by rfl)
  exact ⟨h.1, h.2.2.1, h.2.2.2.1⟩

end InfiniteChat
